import Mathlib

/-!
Shallow embedding of zipfix/merge.py: an in-memory recursive three-way git
tree merge (merge_trees, merge_entries, merge_blobs) together with the
conflict prompt and the rebase operation built on top of the tree merge.

Modelling choices:

* The object database (the odb module, an external collaborator of the merge
  code) is content addressed: two objects are structurally equal iff their
  Oids are equal. We therefore embed every object by its content, so that
  Oid comparison in the source becomes structural equality here.
* Byte strings (tree entry names, blob bodies, symlink targets) are lists of
  naturals.
* Interactive input (the conflict prompt and the confirmation question of
  the blob merge) is an injected stdin stream, indexed by how many reads
  have happened so far.
* The external tools are injected functions of the three byte contents: the
  primary automatic tool (git merge-file) yields an exit code and its
  stdout, the interactive fallback tool (kdiff3) yields the content of the
  merged output file. The display labels passed to the tools only affect
  conflict-marker text inside outputs that the algorithm either discards or
  treats as opaque bytes, so they are not arguments of the injected tools.
* Every merge operation returns its Except value (MergeConflict and
  ValueError are the only exception classes the module raises) paired with
  the next stdin index on success, plus a trace of the resolver prompts and
  external tool invocations that happened before returning or raising.
-/

namespace Zipfix

/-- Byte strings: names inside a tree, blob bodies, symlink targets. -/
abbrev ByteStr := List Nat

/-- odb.Mode, the entry kind: regular file, executable file, directory,
symlink, gitlink (submodule reference). -/
inductive Mode where
  | regular
  | exec
  | dir
  | symlink
  | gitlink
deriving DecidableEq, Repr

/-- Mode.is_file from the object model: true for REGULAR and EXEC only. -/
def Mode.is_file : Mode → Bool
  | .regular => true
  | .exec => true
  | _ => false

mutual
/-- odb.Entry: a (Mode, Oid) pair naming the kind and content of one item in
a Tree. Since objects are content addressed, the referenced object itself
stands in for its Oid; Entry equality is structural on mode and content,
exactly the equality the source decides by Oid comparison. -/
inductive Entry where
  | mk (mode : Mode) (obj : Obj)

/-- The object a tree entry references: a blob (file body, or the target
path for a symlink), a subtree, or, for a gitlink, the bare Oid of a commit
outside this repository. -/
inductive Obj where
  | blob (body : ByteStr)
  | treeObj (entries : EList)
  | link (oid : Nat)

/-- Tree.entries: the association list of (name, Entry) pairs of a tree; a
dict with unique keys in the source. -/
inductive EList where
  | nil
  | cons (name : ByteStr) (e : Entry) (rest : EList)
end

deriving instance DecidableEq for Entry
deriving instance DecidableEq for Obj
deriving instance DecidableEq for EList

/-- The mode of an entry. -/
def Entry.mode : Entry → Mode
  | .mk m _ => m

/-- entry.blob().body: the byte content of the blob an entry references
(the object model guarantees a file-mode entry references a blob). -/
def Entry.blobE : Entry → ByteStr
  | .mk _ (.blob b) => b
  | .mk _ _ => []

/-- entry.tree().entries: the subtree a directory entry references (the
object model guarantees a directory entry references a tree). -/
def Entry.treeE : Entry → EList
  | .mk _ (.treeObj t) => t
  | .mk _ _ => .nil

/-- entry.symlink(): the target path of a symlink entry, stored as the body
of the referenced blob. -/
def Entry.symlinkE (e : Entry) : ByteStr := e.blobE

/-- dict.get(name) on Tree.entries. -/
def EList.get : EList → ByteStr → Option Entry
  | .nil, _ => none
  | .cons m e rest, name => if m = name then some e else rest.get name

/-- dict.keys() on Tree.entries. -/
def EList.keys : EList → List ByteStr
  | .nil => []
  | .cons m _ rest => m :: rest.keys

/-- Worker for the set union of names: keeps the first occurrence of each
name, dropping names already seen. -/
def dedupGo (seen : List ByteStr) : List ByteStr → List ByteStr
  | [] => []
  | n :: rest => if n ∈ seen then dedupGo seen rest else n :: dedupGo (n :: seen) rest

/-- set(current.entries.keys()).union(base..., other...): every name
mentioned in any of the three trees, each once. Set enumeration order is
unspecified in the source and, per the spec, can only affect prompt
presentation order; we fix first-appearance order. -/
def unionNames (current base other : EList) : List ByteStr :=
  dedupGo [] (current.keys ++ base.keys ++ other.keys)

/-- The two exception classes raised by the module: MergeConflict with its
message, and ValueError (the unknown-mode raise). -/
inductive MergeErr where
  | mergeConflict (msg : String)
  | valueError (msg : String)
deriving DecidableEq, Repr

/-- Observable external interactions: one resolver prompt (recording the
conflict kind and the two candidate descriptions), one run of the primary
automatic merge tool, one run of the interactive fallback tool. -/
inductive Event where
  | resolver (descr : String) (currentDescr : String) (otherDescr : String)
  | toolPrimary
  | toolFallback
deriving DecidableEq, Repr

/-- The trace of external interactions of one merge step, in order. -/
abbrev Trace := List Event

/-- The injected environment: the stdin reply stream (indexed by how many
reads happened before), the primary automatic merge tool (exit code and
stdout as a function of the current, base and other byte contents), and the
interactive fallback tool (content of the merged output file as a function
of the base, current and other byte contents). -/
structure Env where
  stdin : Nat → String
  primary : ByteStr → ByteStr → ByteStr → Int × ByteStr
  fallback : ByteStr → ByteStr → ByteStr → ByteStr

/-- The three diagnostic labels threaded through the merge. -/
abbrev Labels := String × String × String

/-- A path, for diagnostics: the list of name components below the root. -/
abbrev GPath := List ByteStr

/-- Result of one merge step: the Except value carrying, on success, the
value and the next stdin index, paired with the trace of external
interactions that happened before returning or raising. -/
abbrev MRes (α : Type) := Except MergeErr (α × Nat) × Trace

/-- str.lower() applied to the confirmation reply: ASCII lowercasing of
the characters (defined over the character list so that it evaluates;
extensionally the map the library toLower performs). -/
def strLower (s : String) : String := String.mk (s.data.map Char.toLower)

/-- str(mode), as displayed by the entry-type conflict prompt. -/
def Mode.str : Mode → String
  | .regular => "Mode.REGULAR"
  | .exec => "Mode.EXEC"
  | .dir => "Mode.DIR"
  | .symlink => "Mode.SYMLINK"
  | .gitlink => "Mode.GITLINK"

/-- Rendering of a byte string for prompt text (bytes.decode in the source;
the rendering is diagnostic only). -/
def bytesStr (b : ByteStr) : String := toString b

mutual
/-- Structural size of an entry; drives the termination of the mutual merge
recursion. -/
def Entry.esize : Entry → Nat
  | .mk _ o => 1 + o.osize

/-- Structural size of an object. -/
def Obj.osize : Obj → Nat
  | .blob b => 1 + b.length
  | .treeObj t => 1 + t.lsize
  | .link i => 1 + i

/-- Structural size of an entry list; positive by construction. -/
def EList.lsize : EList → Nat
  | .nil => 1
  | .cons _ e rest => 1 + e.esize + rest.lsize
end

/-- str(entry.oid) for the submodule conflict prompt; the rendering is
diagnostic only and abstracted here. -/
def Entry.oidStr (e : Entry) : String := toString e.esize

/-- merge.py conflict_prompt: describe the conflict, offer the two
candidates, read one reply; reply 1 chooses current, reply 2 chooses other,
anything else raises MergeConflict aborted. The path and labels only feed
the printed text. -/
def conflict_prompt {α : Type} (env : Env) (path : GPath) (descr : String)
    (labels : Labels) (current : α) (current_descr : String)
    (other : α) (other_descr : String) (idx : Nat) : MRes α :=
  let ch := env.stdin idx
  if ch = "1" then (.ok (current, idx + 1), [.resolver descr current_descr other_descr])
  else if ch = "2" then (.ok (other, idx + 1), [.resolver descr current_descr other_descr])
  else (.error (.mergeConflict "aborted"), [.resolver descr current_descr other_descr])

/-- merge.py merge_blobs: write the three contents to temporary files (an
absent base becomes an empty base file), run git merge-file; exit code 0
returns its stdout as the new blob, a negative exit code raises
MergeConflict, a positive exit code (the number of unresolved conflicts)
runs the interactive fallback tool and asks for confirmation: a reply whose
lowercasing is y returns the merged output file, anything else raises
MergeConflict. -/
def merge_blobs (env : Env) (path : GPath) (labels : Labels)
    (current : ByteStr) (base : Option ByteStr) (other : ByteStr)
    (idx : Nat) : MRes ByteStr :=
  let basebody := base.getD []
  let res := env.primary current basebody other
  if res.1 = 0 then
    (.ok (res.2, idx), [.toolPrimary])
  else if res.1 < 0 then
    (.error (.mergeConflict "git merge-file errored"), [.toolPrimary])
  else
    let merged := env.fallback basebody current other
    if strLower (env.stdin idx) = "y" then
      (.ok (merged, idx + 1), [.toolPrimary, .toolFallback])
    else
      (.error (.mergeConflict "merging failed"), [.toolPrimary, .toolFallback])

/-- Size of an optional entry, for the termination measure. -/
def optSize : Option Entry → Nat
  | some e => e.esize
  | none => 0

/-- Build the merge result from the result of a sub-merge: on success apply
f to the produced value (the source wraps the sub-result in a new Entry),
on failure let the exception propagate; the trace is kept either way. -/
def mapRes {α β : Type} (f : α → β) : MRes α → MRes β
  | (.ok (a, j), tr) => (.ok (f a, j), tr)
  | (.error e, tr) => (.error e, tr)

/-! Size lemmas: prerequisites of the termination argument of the
mutual merge recursion below, which is why they precede it. -/

theorem Obj.osize_pos (o : Obj) : 0 < o.osize := by
  cases o <;> simp [Obj.osize]

theorem EList.lsize_pos (el : EList) : 0 < el.lsize := by
  cases el <;> simp [EList.lsize]

theorem EList.get_optSize : ∀ (el : EList) (n : ByteStr),
    optSize (el.get n) < el.lsize
  | .nil, _ => by simp [EList.get, optSize, EList.lsize]
  | .cons m e rest, n => by
    have ih := EList.get_optSize rest n
    simp only [EList.get, EList.lsize]
    by_cases h : m = n
    · subst h
      rw [if_pos rfl]
      simp only [optSize]
      omega
    · rw [if_neg h]
      omega

theorem Entry.treeE_lsize (e : Entry) : e.treeE.lsize < e.esize := by
  match e with
  | .mk m o =>
    cases o with
    | blob b => simp [Entry.treeE, Entry.esize, Obj.osize, EList.lsize]
    | treeObj t => simp [Entry.treeE, Entry.esize, Obj.osize]; omega
    | link i => simp [Entry.treeE, Entry.esize, Obj.osize, EList.lsize]

mutual
/-- merge.py merge_entries: three-way merge of one named entry, each side
optional (absent means the name does not exist on that side). The three
fast paths come first, in order; everything past them is the conflict
handling, split out below. -/
def merge_entries (env : Env) (path : GPath) (labels : Labels)
    (current base other : Option Entry) (idx : Nat) : MRes (Option Entry) :=
  if base = current then (.ok (other, idx), [])
  else if base = other then (.ok (current, idx), [])
  else if current = other then (.ok (current, idx), [])
  else merge_entries_conflict env path labels current base other idx
termination_by (optSize current + optSize other, 3)
decreasing_by
  apply Prod.Lex.right
  omega

/-- The conflict handling of merge_entries: everything after the three fast
paths of the source function, verbatim. -/
def merge_entries_conflict (env : Env) (path : GPath) (labels : Labels)
    (current base other : Option Entry) (idx : Nat) : MRes (Option Entry) :=
  match current with
  | none =>
    conflict_prompt env path "Deletion" labels none "deleted" other "modified" idx
  | some c =>
    match other with
    | none =>
      conflict_prompt env path "Deletion" labels (some c) "modified" none "deleted" idx
    | some o =>
      if c.mode = o.mode then
        merge_content env path labels c base o c.mode idx
      else if c.mode.is_file && o.mode.is_file then
        merge_content env path labels c base o
          (match base with
           | some b =>
             if b.mode = c.mode then o.mode
             else if b.mode = o.mode then c.mode
             else Mode.exec
           | none => Mode.exec) idx
      else
        conflict_prompt env path "Entry type" labels (some c) c.mode.str
          (some o) o.mode.str idx
termination_by (optSize current + optSize other, 2)
decreasing_by
  all_goals simp only [optSize]
  all_goals apply Prod.Lex.right
  all_goals omega

/-- The entry-content stage of merge_entries: merge the contents of the two
present entries under the resolved mode (the if chain past the mode
determination in the source). -/
def merge_content (env : Env) (path : GPath) (labels : Labels)
    (c : Entry) (base : Option Entry) (o : Entry) (mode : Mode)
    (idx : Nat) : MRes (Option Entry) :=
  if mode.is_file then
    mapRes (fun body => some (Entry.mk mode (.blob body)))
      (merge_blobs env path labels c.blobE
        (match base with
         | some b => if b.mode.is_file then some b.blobE else none
         | none => none) o.blobE idx)
  else if mode = Mode.dir then
    mapRes (fun t => some (Entry.mk mode (.treeObj t)))
      (merge_trees env path labels c.treeE
        (match base with
         | some b => if b.mode = Mode.dir then b.treeE else .nil
         | none => .nil) o.treeE idx)
  else if mode = Mode.symlink then
    conflict_prompt env path "Symlink" labels (some c) (bytesStr c.symlinkE)
      (some o) (bytesStr o.symlinkE) idx
  else if mode = Mode.gitlink then
    conflict_prompt env path "Submodule" labels (some c) c.oidStr
      (some o) o.oidStr idx
  else
    (.error (.valueError "unknown mode"), [])
termination_by (c.esize + o.esize, 1)
decreasing_by
  apply Prod.Lex.left
  have h1 := Entry.treeE_lsize c
  have h2 := Entry.treeE_lsize o
  omega

/-- merge.py merge_trees: merge every name mentioned in any of the three
trees, collecting the non-absent merged entries into a new tree. -/
def merge_trees (env : Env) (path : GPath) (labels : Labels)
    (current base other : EList) (idx : Nat) : MRes EList :=
  merge_names env path labels current base other
    (unionNames current base other) idx
termination_by
  (current.lsize + other.lsize, (unionNames current base other).length + 1)
decreasing_by
  apply Prod.Lex.right
  omega

/-- The loop body of merge_trees: fold merge_entries over the names,
looking each name up on every side (absent when missing) and keeping the
non-absent results. -/
def merge_names (env : Env) (path : GPath) (labels : Labels)
    (current base other : EList) (names : List ByteStr) (idx : Nat) :
    MRes EList :=
  match names with
  | [] => (.ok (.nil, idx), [])
  | n :: rest =>
    match merge_entries env (path ++ [n]) labels (current.get n)
        (base.get n) (other.get n) idx with
    | (.error e, tr) => (.error e, tr)
    | (.ok (res, j), tr) =>
      match merge_names env path labels current base other rest j with
      | (.error e, tr2) => (.error e, tr ++ tr2)
      | (.ok (el, j2), tr2) =>
        (.ok ((match res with
               | some e => EList.cons n e el
               | none => el), j2), tr ++ tr2)
termination_by (current.lsize + other.lsize, names.length)
decreasing_by
  · apply Prod.Lex.left
    have h1 := EList.get_optSize current n
    have h2 := EList.get_optSize other n
    omega
  · apply Prod.Lex.right
    simp
end

/-- odb.Commit, embedded by content: the tree, the parent commit (one hop
is all the merge core reads; a root commit has none), the message and the
author. The committer is supplied by the environment at creation time and
is not an input of rebase, so it is not part of the embedding. -/
inductive Commit where
  | root (tree : EList) (message author : ByteStr)
  | child (tree : EList) (parent : Commit) (message author : ByteStr)
deriving DecidableEq

/-- commit.tree(): the tree of a commit. -/
def Commit.treeC : Commit → EList
  | .root t _ _ => t
  | .child t _ _ _ => t

/-- commit.parent(): the direct parent; absent for a root commit (the
object model fails when it is asked for the parent of a parentless
commit). -/
def Commit.parentC : Commit → Option Commit
  | .root _ _ _ => none
  | .child _ p _ _ => some p

/-- commit.message. -/
def Commit.message : Commit → ByteStr
  | .root _ m _ => m
  | .child _ _ m _ => m

/-- commit.author. -/
def Commit.author : Commit → ByteStr
  | .root _ _ a => a
  | .child _ _ _ a => a

/-- merge.py rebase: move a commit onto a new parent. When the existing
parent already equals the new parent, return the commit unchanged;
otherwise three-way merge the trees rooted at path / with the fixed labels
and create the commit anew on the new parent, keeping message and author.
Asking for the parent of a parentless commit fails inside the object
model, embedded here as an error. -/
def rebase (env : Env) (commit parent : Commit) (idx : Nat) : MRes Commit :=
  match commit.parentC with
  | none => (.error (.valueError "commit has no parent"), [])
  | some oldParent =>
    if oldParent = parent then (.ok (commit, idx), [])
    else
      match merge_trees env [] ("new parent", "old parent", "incoming")
          parent.treeC oldParent.treeC commit.treeC idx with
      | (.ok (t, j), tr) => (.ok (.child t parent commit.message commit.author, j), tr)
      | (.error e, tr) => (.error e, tr)

/-- The seen set after dedupGo has walked a list. -/
def pushSeen (seen : List ByteStr) : List ByteStr → List ByteStr
  | [] => seen
  | n :: rest => pushSeen (if n ∈ seen then seen else n :: seen) rest

/-- The tree rebuilt by walking a list of names and keeping the entries the
source tree has for them. -/
def buildFrom (t : EList) : List ByteStr → EList
  | [] => .nil
  | n :: rest =>
    match t.get n with
    | some e => .cons n e (buildFrom t rest)
    | none => buildFrom t rest

/-! Concrete fixtures used by the witnesses. -/

/-- Fixture labels. -/
def lblW : Labels := ("new parent", "old parent", "incoming")

/-- Fixture environment: always answers 1, the primary tool merges cleanly
to the current content. -/
def envW : Env := ⟨fun _ => "1", fun cur _ _ => (0, cur), fun b _ _ => b⟩

/-- Fixture environment: always answers 2, the primary tool merges
cleanly. -/
def envW2 : Env := ⟨fun _ => "2", fun cur _ _ => (0, cur), fun b _ _ => b⟩

/-- Fixture environment where the primary tool fails with a negative exit
status. -/
def envNegW : Env := ⟨fun _ => "", fun _ _ _ => (-1, []), fun _ _ _ => []⟩

/-- Fixture environment where the primary tool reports one conflict and the
confirmation reply is empty. -/
def envAbortW : Env := ⟨fun _ => "", fun _ _ _ => (1, []), fun _ _ _ => []⟩

/-- Fixture regular-file entry. -/
def eRW : Entry := .mk .regular (.blob [65])

/-- Fixture executable entry. -/
def eXW : Entry := .mk .exec (.blob [66])

/-- Fixture regular-file entry with different content. -/
def eRW2 : Entry := .mk .regular (.blob [67])

/-- Fixture one-entry tree. -/
def tW : EList := .cons [102] eRW .nil

/-- Fixture one-entry tree with different content. -/
def tW2 : EList := .cons [103] eXW .nil

/-- Fixture parent commit. -/
def pW : Commit := .root tW [] []

/-- Fixture commit sitting on pW. -/
def cW : Commit := .child tW2 pW [109] [107]

/-! The claims. -/

/-! Theorems. -/
theorem mapRes_error {α β : Type} (f : α → β) (r : MRes α) (e : MergeErr) :
    (mapRes f r).1 = .error e ↔ r.1 = .error e := by
  rcases r with ⟨r1, tr⟩
  cases r1 with
  | error e2 => simp [mapRes]
  | ok v =>
    obtain ⟨a, j⟩ := v
    simp [mapRes]

/-! Lemmas about the union of names. -/

theorem mem_dedupGo : ∀ (l : List ByteStr) (seen : List ByteStr) (n : ByteStr),
    n ∈ dedupGo seen l ↔ n ∈ l ∧ n ∉ seen
  | [], seen, n => by simp [dedupGo]
  | m :: rest, seen, n => by
    have ih1 := mem_dedupGo rest seen n
    have ih2 := mem_dedupGo rest (m :: seen) n
    simp only [dedupGo]
    by_cases hm : m ∈ seen
    · rw [if_pos hm, ih1]
      by_cases hnm : n = m
      · subst hnm
        simp [hm]
      · simp [List.mem_cons, hnm]
    · rw [if_neg hm]
      by_cases hnm : n = m
      · subst hnm
        simp [hm]
      · simp [List.mem_cons, hnm, ih2]

theorem nodup_dedupGo : ∀ (l : List ByteStr) (seen : List ByteStr),
    (dedupGo seen l).Nodup
  | [], seen => by simp [dedupGo]
  | m :: rest, seen => by
    have ih1 := nodup_dedupGo rest seen
    have ih2 := nodup_dedupGo rest (m :: seen)
    simp only [dedupGo]
    by_cases hm : m ∈ seen
    · rw [if_pos hm]
      exact ih1
    · rw [if_neg hm]
      refine List.nodup_cons.mpr ⟨fun hc => ?_, ih2⟩
      exact ((mem_dedupGo _ _ _).mp hc).2 (List.mem_cons_self _ _)

/-- Names already seen contribute nothing. -/
theorem dedupGo_eq_nil : ∀ (l : List ByteStr) (seen : List ByteStr),
    (∀ x ∈ l, x ∈ seen) → dedupGo seen l = []
  | [], _, _ => rfl
  | m :: rest, seen, h => by
    simp only [dedupGo, if_pos (h m (List.mem_cons_self _ _))]
    exact dedupGo_eq_nil rest seen fun x hx => h x (List.mem_cons_of_mem _ hx)

theorem subset_pushSeen : ∀ (l : List ByteStr) (seen : List ByteStr),
    ∀ x, (x ∈ seen ∨ x ∈ l) → x ∈ pushSeen seen l
  | [], _, x, h => by simpa using h.resolve_right (by simp)
  | n :: rest, seen, x, h => by
    simp only [pushSeen]
    apply subset_pushSeen rest _ x
    by_cases hn : n ∈ seen
    · rw [if_pos hn]
      rcases h with h | h
      · exact Or.inl h
      · rcases List.mem_cons.mp h with h | h
        · exact Or.inl (h ▸ hn)
        · exact Or.inr h
    · rw [if_neg hn]
      rcases h with h | h
      · exact Or.inl (List.mem_cons_of_mem _ h)
      · rcases List.mem_cons.mp h with h | h
        · exact Or.inl (h ▸ List.mem_cons_self _ _)
        · exact Or.inr h

theorem dedupGo_append : ∀ (l1 l2 : List ByteStr) (seen : List ByteStr),
    dedupGo seen (l1 ++ l2) = dedupGo seen l1 ++ dedupGo (pushSeen seen l1) l2
  | [], l2, seen => by simp [dedupGo, pushSeen]
  | m :: rest, l2, seen => by
    by_cases hm : m ∈ seen
    · simp only [List.cons_append, dedupGo, pushSeen, if_pos hm]
      exact dedupGo_append rest l2 seen
    · simp only [List.cons_append, dedupGo, pushSeen, if_neg hm, List.append_eq]
      rw [dedupGo_append rest l2 (m :: seen)]

/-- On a list of unseen names without duplicates, dedupGo is the
identity. -/
theorem dedupGo_nodup_id : ∀ (l : List ByteStr) (seen : List ByteStr),
    l.Nodup → (∀ x ∈ l, x ∉ seen) → dedupGo seen l = l
  | [], _, _, _ => rfl
  | m :: rest, seen, hnd, hs => by
    simp only [dedupGo, if_neg (hs m (List.mem_cons_self _ _))]
    rw [dedupGo_nodup_id rest (m :: seen) (List.nodup_cons.mp hnd).2]
    intro x hx
    rcases List.nodup_cons.mp hnd with ⟨hm, _⟩
    simp only [List.mem_cons, not_or]
    exact ⟨fun he => hm (he ▸ hx), hs x (List.mem_cons_of_mem _ hx)⟩

theorem mem_unionNames (c b o : EList) (n : ByteStr) :
    n ∈ unionNames c b o ↔ n ∈ c.keys ∨ n ∈ b.keys ∨ n ∈ o.keys := by
  simp [unionNames, mem_dedupGo]

theorem nodup_unionNames (c b o : EList) : (unionNames c b o).Nodup :=
  nodup_dedupGo _ _

/-- When the three trees coincide, the union of names is the key list of
that tree (whose keys, being dict keys, do not repeat). -/
theorem unionNames_self (t : EList) (h : t.keys.Nodup) :
    unionNames t t t = t.keys := by
  unfold unionNames
  rw [dedupGo_append, dedupGo_append]
  rw [dedupGo_nodup_id t.keys [] h (by simp)]
  rw [dedupGo_eq_nil t.keys (pushSeen [] t.keys) fun x hx =>
    subset_pushSeen t.keys [] x (Or.inr hx)]
  rw [dedupGo_eq_nil t.keys (pushSeen [] (t.keys ++ t.keys)) fun x hx =>
    subset_pushSeen (t.keys ++ t.keys) [] x (Or.inr (List.mem_append_left _ hx))]
  simp

/-! Lemmas about merging a tree with itself. -/

theorem get_cons_self (n : ByteStr) (e : Entry) (rest : EList) :
    (EList.cons n e rest).get n = some e := by
  simp [EList.get]

theorem get_cons_ne (n m : ByteStr) (e : Entry) (rest : EList) (h : n ≠ m) :
    (EList.cons n e rest).get m = rest.get m := by
  simp [EList.get, h]

theorem merge_entries_refl (env : Env) (path : GPath) (labels : Labels)
    (x : Option Entry) (idx : Nat) :
    merge_entries env path labels x x x idx = (.ok (x, idx), []) := by
  unfold merge_entries
  simp

theorem buildFrom_congr : ∀ (names : List ByteStr) (t1 t2 : EList),
    (∀ x ∈ names, t1.get x = t2.get x) →
    buildFrom t1 names = buildFrom t2 names
  | [], _, _, _ => rfl
  | n :: rest, t1, t2, h => by
    have ih := buildFrom_congr rest t1 t2
      (fun x hx => h x (List.mem_cons_of_mem _ hx))
    simp only [buildFrom, h n (List.mem_cons_self _ _), ih]

theorem buildFrom_keys : ∀ (t : EList), t.keys.Nodup → buildFrom t t.keys = t
  | .nil, _ => rfl
  | .cons n e rest, h => by
    obtain ⟨hn, hrest⟩ := List.nodup_cons.mp (by simpa [EList.keys] using h)
    have hcong : buildFrom (EList.cons n e rest) rest.keys
        = buildFrom rest rest.keys :=
      buildFrom_congr rest.keys _ _ fun x hx =>
        get_cons_ne n x e rest (fun he => hn (he ▸ hx))
    simp only [EList.keys, buildFrom, get_cons_self, hcong,
      buildFrom_keys rest hrest]

theorem merge_names_self : ∀ (names : List ByteStr) (env : Env)
    (path : GPath) (labels : Labels) (t : EList) (idx : Nat),
    merge_names env path labels t t t names idx
      = (.ok (buildFrom t names, idx), [])
  | [], env, path, labels, t, idx => by
    unfold merge_names
    rfl
  | n :: rest, env, path, labels, t, idx => by
    unfold merge_names
    rw [merge_entries_refl]
    dsimp only
    rw [merge_names_self rest env path labels t idx]
    dsimp only
    cases h : t.get n <;> simp [buildFrom, h]

/-- merge_trees of one tree against itself on both sides reproduces the
tree, touching neither the resolver nor the merge tools. -/
theorem merge_trees_self (env : Env) (path : GPath) (labels : Labels)
    (t : EList) (idx : Nat) (h : t.keys.Nodup) :
    merge_trees env path labels t t t idx = (.ok (t, idx), []) := by
  unfold merge_trees
  rw [unionNames_self t h, merge_names_self, buildFrom_keys t h]

/-! Lemmas characterising the names of a merged tree. -/

theorem merge_names_keys_sub : ∀ (names : List ByteStr) (env : Env)
    (path : GPath) (labels : Labels) (c b o : EList) (idx : Nat)
    (t : EList) (j : Nat) (tr : Trace),
    merge_names env path labels c b o names idx = (.ok (t, j), tr) →
    ∀ n ∈ t.keys, n ∈ names
  | [], env, path, labels, c, b, o, idx, t, j, tr => by
    intro h
    unfold merge_names at h
    simp only [Prod.mk.injEq, Except.ok.injEq] at h
    rw [← h.1.1]
    simp [EList.keys]
  | m :: rest, env, path, labels, c, b, o, idx, t, j, tr => by
    intro h
    unfold merge_names at h
    rcases hme : merge_entries env (path ++ [m]) labels (c.get m) (b.get m)
      (o.get m) idx with ⟨r1, tr1⟩
    rw [hme] at h
    cases r1 with
    | error e => simp at h
    | ok v =>
      obtain ⟨res, j1⟩ := v
      dsimp only at h
      rcases hmn : merge_names env path labels c b o rest j1 with ⟨r2, tr2⟩
      rw [hmn] at h
      cases r2 with
      | error e => simp at h
      | ok w =>
        obtain ⟨el, j2⟩ := w
        have ih := merge_names_keys_sub rest env path labels c b o j1 el j2
          tr2 hmn
        simp only [Prod.mk.injEq, Except.ok.injEq] at h
        intro n hn
        rw [← h.1.1] at hn
        cases res with
        | some e =>
          simp only [EList.keys, List.mem_cons] at hn
          rcases hn with hn | hn
          · exact hn ▸ List.mem_cons_self _ _
          · exact List.mem_cons_of_mem _ (ih n hn)
        | none => exact List.mem_cons_of_mem _ (ih n hn)

theorem merge_names_keys_char : ∀ (names : List ByteStr) (env : Env)
    (path : GPath) (labels : Labels) (c b o : EList) (idx : Nat)
    (t : EList) (j : Nat) (tr : Trace),
    names.Nodup →
    merge_names env path labels c b o names idx = (.ok (t, j), tr) →
    ∀ n ∈ names,
      (n ∈ t.keys ∧ ∃ i1 i2 tr2 e, merge_entries env (path ++ [n]) labels
        (c.get n) (b.get n) (o.get n) i1 = (.ok (some e, i2), tr2)) ∨
      (n ∉ t.keys ∧ ∃ i1 i2 tr2, merge_entries env (path ++ [n]) labels
        (c.get n) (b.get n) (o.get n) i1 = (.ok (none, i2), tr2))
  | [], env, path, labels, c, b, o, idx, t, j, tr => by
    intro _ _ n hn
    simp at hn
  | m :: rest, env, path, labels, c, b, o, idx, t, j, tr => by
    intro hnd h
    obtain ⟨hm, hrest⟩ := List.nodup_cons.mp hnd
    unfold merge_names at h
    rcases hme : merge_entries env (path ++ [m]) labels (c.get m) (b.get m)
      (o.get m) idx with ⟨r1, tr1⟩
    rw [hme] at h
    cases r1 with
    | error e => simp at h
    | ok v =>
      obtain ⟨res, j1⟩ := v
      dsimp only at h
      rcases hmn : merge_names env path labels c b o rest j1 with ⟨r2, tr2⟩
      rw [hmn] at h
      cases r2 with
      | error e => simp at h
      | ok w =>
        obtain ⟨el, j2⟩ := w
        have hsub := merge_names_keys_sub rest env path labels c b o j1 el
          j2 tr2 hmn
        have ih := merge_names_keys_char rest env path labels c b o j1 el
          j2 tr2 hrest hmn
        simp only [Prod.mk.injEq, Except.ok.injEq] at h
        intro n hn
        rcases List.mem_cons.mp hn with hn | hn
        · subst hn
          cases res with
          | some e =>
            refine Or.inl ⟨?_, idx, j1, tr1, e, hme⟩
            rw [← h.1.1]
            simp [EList.keys]
          | none =>
            refine Or.inr ⟨?_, idx, j1, tr1, hme⟩
            rw [← h.1.1]
            exact fun hc => hm (hsub n hc)
        · have hne : n ≠ m := fun he => hm (he ▸ hn)
          rcases ih n hn with ⟨hk, hex⟩ | ⟨hk, hex⟩
          · refine Or.inl ⟨?_, hex⟩
            rw [← h.1.1]
            cases res with
            | some e => simp [EList.keys, hk]
            | none => exact hk
          · refine Or.inr ⟨?_, hex⟩
            rw [← h.1.1]
            cases res with
            | some e =>
              simp only [EList.keys, List.mem_cons]
              rintro (hc | hc)
              · exact hne hc
              · exact hk hc
            | none => exact hk

/-! The ValueError branch of merge_entries is unreachable: every error the
merge raises is a MergeConflict coming from the resolver or the blob
merge. -/

theorem conflict_prompt_no_vE {α : Type} (env : Env) (path : GPath)
    (descr : String) (labels : Labels) (current : α) (cd : String)
    (other : α) (od : String) (idx : Nat) (m : String) :
    (conflict_prompt env path descr labels current cd other od idx).1
      ≠ Except.error (.valueError m) := by
  simp only [conflict_prompt]
  split
  · simp
  · split <;> simp

theorem merge_blobs_no_vE (env : Env) (path : GPath) (labels : Labels)
    (current : ByteStr) (base : Option ByteStr) (other : ByteStr)
    (idx : Nat) (m : String) :
    (merge_blobs env path labels current base other idx).1
      ≠ Except.error (.valueError m) := by
  simp only [merge_blobs]
  split
  · simp
  · split
    · simp
    · split <;> simp

/-- The blob merge only ever talks to the external tools, never to the
resolver prompt. -/
theorem merge_blobs_trace (env : Env) (path : GPath) (labels : Labels)
    (current : ByteStr) (base : Option ByteStr) (other : ByteStr)
    (idx : Nat) :
    (merge_blobs env path labels current base other idx).2 = [.toolPrimary]
    ∨ (merge_blobs env path labels current base other idx).2
        = [.toolPrimary, .toolFallback] := by
  simp only [merge_blobs]
  split
  · simp
  · split
    · simp
    · split <;> simp


mutual
theorem merge_entries_no_vE (env : Env) (path : GPath) (labels : Labels)
    (current base other : Option Entry) (idx : Nat) (m : String) :
    (merge_entries env path labels current base other idx).1
      ≠ Except.error (.valueError m) := by
  unfold merge_entries
  by_cases h1 : base = current
  · rw [if_pos h1]
    simp
  · rw [if_neg h1]
    by_cases h2 : base = other
    · rw [if_pos h2]
      simp
    · rw [if_neg h2]
      by_cases h3 : current = other
      · rw [if_pos h3]
        simp
      · rw [if_neg h3]
        exact merge_entries_conflict_no_vE env path labels current base
          other idx m
termination_by (optSize current + optSize other, 3)
decreasing_by
  apply Prod.Lex.right
  omega

theorem merge_entries_conflict_no_vE (env : Env) (path : GPath)
    (labels : Labels) (current base other : Option Entry) (idx : Nat)
    (m : String) :
    (merge_entries_conflict env path labels current base other idx).1
      ≠ Except.error (.valueError m) := by
  unfold merge_entries_conflict
  cases current with
  | none =>
    exact conflict_prompt_no_vE env path "Deletion" labels none
      "deleted" other "modified" idx m
  | some c =>
    cases other with
    | none =>
      exact conflict_prompt_no_vE env path "Deletion" labels
        (some c) "modified" none "deleted" idx m
    | some o =>
      dsimp only
      by_cases h1 : c.mode = o.mode
      · rw [if_pos h1]
        exact merge_content_no_vE env path labels c base o c.mode idx m
      · rw [if_neg h1]
        by_cases h2 : (c.mode.is_file && o.mode.is_file) = true
        · rw [if_pos h2]
          exact merge_content_no_vE env path labels c base o _ idx m
        · rw [if_neg h2]
          exact conflict_prompt_no_vE env path "Entry type" labels (some c)
            c.mode.str (some o) o.mode.str idx m
termination_by (optSize current + optSize other, 2)
decreasing_by
  all_goals simp only [optSize]
  all_goals apply Prod.Lex.right
  all_goals omega

theorem merge_content_no_vE (env : Env) (path : GPath) (labels : Labels)
    (c : Entry) (base : Option Entry) (o : Entry) (mode : Mode)
    (idx : Nat) (m : String) :
    (merge_content env path labels c base o mode idx).1
      ≠ Except.error (.valueError m) := by
  unfold merge_content
  by_cases hf : mode.is_file = true
  · rw [if_pos hf]
    intro hc
    rw [mapRes_error] at hc
    exact merge_blobs_no_vE env path labels c.blobE _ o.blobE idx m hc
  · rw [if_neg hf]
    by_cases hd : mode = Mode.dir
    · rw [if_pos hd]
      intro hc
      rw [mapRes_error] at hc
      exact merge_trees_no_vE env path labels c.treeE _ o.treeE idx m hc
    · rw [if_neg hd]
      by_cases hs : mode = Mode.symlink
      · rw [if_pos hs]
        exact conflict_prompt_no_vE env path "Symlink" labels (some c)
          (bytesStr c.symlinkE) (some o) (bytesStr o.symlinkE) idx m
      · rw [if_neg hs]
        by_cases hg : mode = Mode.gitlink
        · rw [if_pos hg]
          exact conflict_prompt_no_vE env path "Submodule" labels (some c)
            c.oidStr (some o) o.oidStr idx m
        · rw [if_neg hg]
          exfalso
          cases mode <;> simp_all [Mode.is_file]
termination_by (c.esize + o.esize, 1)
decreasing_by
  apply Prod.Lex.left
  have t1 := Entry.treeE_lsize c
  have t2 := Entry.treeE_lsize o
  omega

theorem merge_trees_no_vE (env : Env) (path : GPath) (labels : Labels)
    (current base other : EList) (idx : Nat) (m : String) :
    (merge_trees env path labels current base other idx).1
      ≠ Except.error (.valueError m) := by
  unfold merge_trees
  exact merge_names_no_vE env path labels current base other
    (unionNames current base other) idx m
termination_by
  (current.lsize + other.lsize, (unionNames current base other).length + 1)
decreasing_by
  apply Prod.Lex.right
  omega

theorem merge_names_no_vE (env : Env) (path : GPath) (labels : Labels)
    (current base other : EList) (names : List ByteStr) (idx : Nat)
    (m : String) :
    (merge_names env path labels current base other names idx).1
      ≠ Except.error (.valueError m) := by
  unfold merge_names
  cases names with
  | nil => simp
  | cons n rest =>
    dsimp only
    rcases hme : merge_entries env (path ++ [n]) labels (current.get n)
      (base.get n) (other.get n) idx with ⟨r1, tr1⟩
    have he := merge_entries_no_vE env (path ++ [n]) labels (current.get n)
      (base.get n) (other.get n) idx m
    rw [hme] at he
    cases r1 with
    | error e =>
      simp only
      simpa using he
    | ok v =>
      obtain ⟨res, j1⟩ := v
      dsimp only
      rcases hmn : merge_names env path labels current base other rest j1
        with ⟨r2, tr2⟩
      have hn := merge_names_no_vE env path labels current base other rest
        j1 m
      rw [hmn] at hn
      cases r2 with
      | error e =>
        simp only
        simpa using hn
      | ok w => simp
termination_by (current.lsize + other.lsize, names.length)
decreasing_by
  · apply Prod.Lex.left
    exact Nat.add_lt_add (EList.get_optSize current _) (EList.get_optSize other _)
  · apply Prod.Lex.right
    simp
end

/-! Remaining shared lemmas for the claims. -/

theorem mapRes_snd {α β : Type} (f : α → β) (r : MRes α) :
    (mapRes f r).2 = r.2 := by
  rcases r with ⟨r1, tr⟩
  cases r1 with
  | error e => rfl
  | ok v =>
    obtain ⟨a, j⟩ := v
    rfl

/-- When none of the three fast-path equalities holds, merge_entries is its
conflict handling. -/
theorem merge_entries_to_conflict (env : Env) (path : GPath)
    (labels : Labels) (current base other : Option Entry) (idx : Nat)
    (h1 : base ≠ current) (h2 : base ≠ other) (h3 : current ≠ other) :
    merge_entries env path labels current base other idx
      = merge_entries_conflict env path labels current base other idx := by
  unfold merge_entries
  rw [if_neg h1, if_neg h2, if_neg h3]

/-- C1: merge_entries applies the resolution rules in order, first match
wins: base equal to current gives other (absence of other included, a
deletion); else base equal to other gives current; else current equal to
other gives current; only when all three comparisons fail is the conflict
handling reached. -/
theorem claim_mergeEntry_rule_order (env : Env) (path : GPath)
    (labels : Labels) (current base other : Option Entry) (idx : Nat) :
    (base = current →
      merge_entries env path labels current base other idx
        = (.ok (other, idx), []))
  ∧ (base ≠ current → base = other →
      merge_entries env path labels current base other idx
        = (.ok (current, idx), []))
  ∧ (base ≠ current → base ≠ other → current = other →
      merge_entries env path labels current base other idx
        = (.ok (current, idx), []))
  ∧ (base ≠ current → base ≠ other → current ≠ other →
      merge_entries env path labels current base other idx
        = merge_entries_conflict env path labels current base other idx) := by
  refine ⟨fun h1 => ?_, fun h1 h2 => ?_, fun h1 h2 h3 => ?_,
    fun h1 h2 h3 => merge_entries_to_conflict env path labels current base
      other idx h1 h2 h3⟩
  · unfold merge_entries
    rw [if_pos h1]
  · unfold merge_entries
    rw [if_neg h1, if_pos h2]
  · unfold merge_entries
    rw [if_neg h1, if_neg h2, if_pos h3]

/-- Witness for C1: a concrete run through the first fast path. -/
theorem claim_mergeEntry_rule_order_witness :
    merge_entries envW [] lblW (some eRW) (some eRW) (some eXW) 0
      = (.ok (some eXW, 0), []) :=
  (claim_mergeEntry_rule_order envW [] lblW (some eRW) (some eRW)
    (some eXW) 0).1 rfl

/-- C5 counterexample: a negative exit status of the primary tool raises
MergeConflict, the very same exception class the abandonment path raises;
the code has no separate tool-execution error class. -/
theorem claim_toolError_class_counterexample :
    (merge_blobs envNegW [] lblW [2] none [3] 0).1
      = .error (.mergeConflict "git merge-file errored")
  ∧ (merge_blobs envAbortW [] lblW [2] none [3] 0).1
      = .error (.mergeConflict "merging failed") := by
  constructor <;> rfl

/-- C5 amended: a negative exit status of the primary tool raises
MergeConflict (message git merge-file errored) without invoking the
fallback tool or reading any confirmation, for every environment. -/
theorem claim_mergeBlob_tool_error (env : Env) (path : GPath)
    (labels : Labels) (cur : ByteStr) (base : Option ByteStr)
    (oth : ByteStr) (idx : Nat)
    (h : (env.primary cur (base.getD []) oth).1 < 0) :
    merge_blobs env path labels cur base oth idx
      = (.error (.mergeConflict "git merge-file errored"), [.toolPrimary]) := by
  simp only [merge_blobs]
  rw [if_neg (by omega), if_pos h]

/-- Witness for C5 amended: the concrete failing environment. -/
theorem claim_mergeBlob_tool_error_witness :
    merge_blobs envNegW [] lblW [2] none [3] 0
      = (.error (.mergeConflict "git merge-file errored"), [.toolPrimary]) :=
  claim_mergeBlob_tool_error envNegW [] lblW [2] none [3] 0 (by decide)

/-- C6: merging any tree with itself on all three sides returns the same
tree (same content, hence same Oid), with the resolver and the content
merger never invoked (empty interaction trace) and no input consumed.
Tree.entries is a dict, so its keys do not repeat. -/
theorem claim_mergeTree_idempotent (env : Env) (path : GPath)
    (labels : Labels) (idx : Nat) (t : EList) (h : t.keys.Nodup) :
    merge_trees env path labels t t t idx = (.ok (t, idx), []) :=
  merge_trees_self env path labels t idx h

/-- Witness for C6: a concrete one-entry tree. -/
theorem claim_mergeTree_idempotent_witness :
    merge_trees envW [] lblW tW tW tW 0 = (.ok (tW, 0), []) :=
  claim_mergeTree_idempotent envW [] lblW 0 tW (by decide)

/-- C8: when the parent of the commit already equals the new parent, rebase
returns the commit itself, with no tree merge performed (empty trace, no
input consumed) for every environment. -/
theorem claim_rebase_noop (env : Env) (commit parent : Commit) (idx : Nat)
    (h : commit.parentC = some parent) :
    rebase env commit parent idx = (.ok (commit, idx), []) := by
  unfold rebase
  rw [h]
  dsimp only
  rw [if_pos rfl]

/-- Witness for C8: a concrete commit on a concrete parent. -/
theorem claim_rebase_noop_witness :
    rebase envW cW pW 0 = (.ok (cW, 0), []) :=
  claim_rebase_noop envW cW pW 0 rfl

/-- C10: the unknown-mode raise of merge_entries is unreachable: the four
content arms cover every Mode, so merge_entries never surfaces the
ValueError, for any inputs at all. -/
theorem claim_mergeEntry_unknown_mode_unreachable (env : Env)
    (path : GPath) (labels : Labels) (current base other : Option Entry)
    (idx : Nat) (m : String) :
    (∀ mo : Mode, mo.is_file = true ∨ mo = Mode.dir ∨ mo = Mode.symlink
      ∨ mo = Mode.gitlink)
  ∧ (merge_entries env path labels current base other idx).1
      ≠ Except.error (.valueError m) := by
  constructor
  · intro mo
    cases mo <;> simp [Mode.is_file]
  · exact merge_entries_no_vE env path labels current base other idx m

/-- C2: the tree returned by merge_trees holds exactly the names of the
union of the three name sets whose entry merge produced a present entry:
every merged name came from some input, a name of the union is in the
result iff its merge_entries call returned a present entry, and a name
absent from all three inputs never appears. -/
theorem claim_mergeTree_union_names (env : Env) (path : GPath)
    (labels : Labels) (c b o : EList) (idx : Nat) (t : EList) (j : Nat)
    (tr : Trace)
    (h : merge_trees env path labels c b o idx = (.ok (t, j), tr)) :
    (∀ n ∈ t.keys, n ∈ c.keys ∨ n ∈ b.keys ∨ n ∈ o.keys)
  ∧ (∀ n, (n ∈ c.keys ∨ n ∈ b.keys ∨ n ∈ o.keys) →
      (n ∈ t.keys ∧ ∃ i1 i2 tr2 e, merge_entries env (path ++ [n]) labels
        (c.get n) (b.get n) (o.get n) i1 = (.ok (some e, i2), tr2)) ∨
      (n ∉ t.keys ∧ ∃ i1 i2 tr2, merge_entries env (path ++ [n]) labels
        (c.get n) (b.get n) (o.get n) i1 = (.ok (none, i2), tr2))) := by
  unfold merge_trees at h
  constructor
  · intro n hn
    exact (mem_unionNames c b o n).mp
      (merge_names_keys_sub (unionNames c b o) env path labels c b o idx
        t j tr h n hn)
  · intro n hn
    exact merge_names_keys_char (unionNames c b o) env path labels c b o
      idx t j tr (nodup_unionNames c b o) h n ((mem_unionNames c b o n).mpr hn)

/-- Witness for C2: a concrete successful merge, queried at the one name
the inputs mention. -/
theorem claim_mergeTree_union_names_witness :
    ([102] ∈ tW.keys ∧ ∃ i1 i2 tr2 e, merge_entries envW ([] ++ [[102]])
      lblW (tW.get [102]) (tW.get [102]) (tW.get [102]) i1
        = (.ok (some e, i2), tr2)) ∨
    ([102] ∉ tW.keys ∧ ∃ i1 i2 tr2, merge_entries envW ([] ++ [[102]])
      lblW (tW.get [102]) (tW.get [102]) (tW.get [102]) i1
        = (.ok (none, i2), tr2)) :=
  (claim_mergeTree_union_names envW [] lblW tW tW tW 0 tW 0 []
    (merge_trees_self envW [] lblW tW 0 (by decide))).2 [102]
    (Or.inl (by decide))

/-- C3: for two present entries with differing file-kind modes (and no
fast path applying), merge_entries resolves the mode by the three-way
comparison on modes, defaulting to EXEC, and hands the contents straight
to the blob merge under that mode; the resolver is never consulted. -/
theorem claim_mergeEntry_file_mode_resolution (env : Env) (path : GPath)
    (labels : Labels) (c bb o : Entry) (idx : Nat)
    (hbc : bb ≠ c) (hbo : bb ≠ o) (hm : c.mode ≠ o.mode)
    (hcf : c.mode.is_file = true) (hof : o.mode.is_file = true) :
    merge_entries env path labels (some c) (some bb) (some o) idx
      = mapRes (fun body => some (Entry.mk
          (if bb.mode = c.mode then o.mode
           else if bb.mode = o.mode then c.mode else Mode.exec)
          (Obj.blob body)))
        (merge_blobs env path labels c.blobE
          (if bb.mode.is_file then some bb.blobE else none) o.blobE idx)
  ∧ ∀ d cd od, Event.resolver d cd od
      ∉ (merge_entries env path labels (some c) (some bb) (some o) idx).2 := by
  have hfile : (if bb.mode = c.mode then o.mode
      else if bb.mode = o.mode then c.mode else Mode.exec).is_file
        = true := by
    split
    · exact hof
    · split
      · exact hcf
      · rfl
  have heq : merge_entries env path labels (some c) (some bb) (some o) idx
      = mapRes (fun body => some (Entry.mk
          (if bb.mode = c.mode then o.mode
           else if bb.mode = o.mode then c.mode else Mode.exec)
          (Obj.blob body)))
        (merge_blobs env path labels c.blobE
          (if bb.mode.is_file then some bb.blobE else none) o.blobE idx) := by
    rw [merge_entries_to_conflict env path labels (some c) (some bb)
      (some o) idx (fun he => hbc (Option.some.inj he))
      (fun he => hbo (Option.some.inj he))
      (fun he => hm (by rw [Option.some.inj he]))]
    unfold merge_entries_conflict
    dsimp only
    rw [if_neg hm, if_pos (by rw [hcf, hof]; rfl)]
    unfold merge_content
    rw [if_pos hfile]
  refine ⟨heq, fun d cd od => ?_⟩
  rw [heq, mapRes_snd]
  rcases merge_blobs_trace env path labels c.blobE
    (if bb.mode.is_file then some bb.blobE else none) o.blobE idx
    with h | h <;> rw [h] <;> simp

/-- Witness for C3: base REGULAR, current EXEC, other REGULAR with changed
content; the mode comparison picks the tie-break branch concretely. -/
theorem claim_mergeEntry_file_mode_resolution_witness :
    merge_entries envW [] lblW (some eXW) (some eRW) (some eRW2) 0
      = mapRes (fun body => some (Entry.mk
          (if eRW.mode = eXW.mode then eRW2.mode
           else if eRW.mode = eRW2.mode then eXW.mode else Mode.exec)
          (Obj.blob body)))
        (merge_blobs envW [] lblW eXW.blobE
          (if eRW.mode.is_file then some eRW.blobE else none)
          eRW2.blobE 0) :=
  (claim_mergeEntry_file_mode_resolution envW [] lblW eXW eRW eRW2 0
    (by decide) (by decide) (by decide) (by decide) (by decide)).1

/-- C4: the blob-merge protocol. Exit status 0 of the primary tool returns
its stdout as the merged blob, reading no confirmation and never touching
the fallback tool; a positive status runs the fallback tool and asks for
confirmation: a reply lowercasing to y returns the merged output file,
anything else (empty or negative replies included) raises MergeConflict. -/
theorem claim_mergeBlob_protocol (env : Env) (path : GPath)
    (labels : Labels) (cur : ByteStr) (base : Option ByteStr)
    (oth : ByteStr) (idx : Nat) :
    ((env.primary cur (base.getD []) oth).1 = 0 →
      merge_blobs env path labels cur base oth idx
        = (.ok ((env.primary cur (base.getD []) oth).2, idx),
            [.toolPrimary]))
  ∧ (0 < (env.primary cur (base.getD []) oth).1 →
      (strLower (env.stdin idx) = "y" →
        merge_blobs env path labels cur base oth idx
          = (.ok (env.fallback (base.getD []) cur oth, idx + 1),
              [.toolPrimary, .toolFallback]))
    ∧ (strLower (env.stdin idx) ≠ "y" →
        merge_blobs env path labels cur base oth idx
          = (.error (.mergeConflict "merging failed"),
              [.toolPrimary, .toolFallback]))) := by
  refine ⟨fun h0 => ?_, fun hpos => ⟨fun hy => ?_, fun hn => ?_⟩⟩
  · simp only [merge_blobs]
    rw [if_pos h0]
  · simp only [merge_blobs]
    rw [if_neg (by omega), if_neg (by omega), if_pos hy]
  · simp only [merge_blobs]
    rw [if_neg (by omega), if_neg (by omega), if_neg hn]

/-- Witness for C4: one clean primary run and one conflicted run whose
empty confirmation aborts. -/
theorem claim_mergeBlob_protocol_witness :
    merge_blobs envW [] lblW [2] none [3] 0
      = (.ok ((envW.primary [2] ((none : Option ByteStr).getD []) [3]).2, 0),
          [.toolPrimary])
  ∧ merge_blobs envAbortW [] lblW [2] none [3] 0
      = (.error (.mergeConflict "merging failed"),
          [.toolPrimary, .toolFallback]) :=
  ⟨(claim_mergeBlob_protocol envW [] lblW [2] none [3] 0).1 rfl,
   ((claim_mergeBlob_protocol envAbortW [] lblW [2] none [3] 0).2
     (by decide)).2 (by decide)⟩

/-- C7: current absent, base and other present and different: the resolver
is asked about a Deletion with candidates labelled deleted and modified;
choosing 2 (modified) keeps the other entry, choosing 1 (deleted) yields
absence. -/
theorem claim_mergeEntry_deletion_conflict (env : Env) (path : GPath)
    (labels : Labels) (bb o : Entry) (idx : Nat) (hbo : bb ≠ o) :
    merge_entries env path labels none (some bb) (some o) idx
      = conflict_prompt env path "Deletion" labels none "deleted" (some o)
          "modified" idx
  ∧ (env.stdin idx = "2" →
      merge_entries env path labels none (some bb) (some o) idx
        = (.ok (some o, idx + 1),
            [.resolver "Deletion" "deleted" "modified"]))
  ∧ (env.stdin idx = "1" →
      merge_entries env path labels none (some bb) (some o) idx
        = (.ok (none, idx + 1),
            [.resolver "Deletion" "deleted" "modified"])) := by
  have heq : merge_entries env path labels none (some bb) (some o) idx
      = conflict_prompt env path "Deletion" labels none "deleted" (some o)
          "modified" idx := by
    rw [merge_entries_to_conflict env path labels none (some bb) (some o)
      idx (by simp) (fun he => hbo (Option.some.inj he)) (by simp)]
    unfold merge_entries_conflict
    rfl
  refine ⟨heq, fun h2 => ?_, fun h1 => ?_⟩
  · rw [heq]
    simp [conflict_prompt, h2]
  · rw [heq]
    simp [conflict_prompt, h1]

/-- Witness for C7: the resolver concretely answers 2 and the other entry
survives. -/
theorem claim_mergeEntry_deletion_conflict_witness :
    merge_entries envW2 [] lblW none (some eRW) (some eRW2) 0
      = (.ok (some eRW2, 1), [.resolver "Deletion" "deleted" "modified"]) :=
  (claim_mergeEntry_deletion_conflict envW2 [] lblW eRW eRW2 0
    (by decide)).2.1 rfl

/-- C9: with base absent and two present file-kind entries of differing
modes, the resolved mode is EXEC and the contents go to the blob merge
with no base content. -/
theorem claim_mergeEntry_absent_base_exec (env : Env) (path : GPath)
    (labels : Labels) (c o : Entry) (idx : Nat)
    (hm : c.mode ≠ o.mode) (hcf : c.mode.is_file = true)
    (hof : o.mode.is_file = true) :
    merge_entries env path labels (some c) none (some o) idx
      = mapRes (fun body => some (Entry.mk Mode.exec (Obj.blob body)))
          (merge_blobs env path labels c.blobE none o.blobE idx) := by
  rw [merge_entries_to_conflict env path labels (some c) none (some o) idx
    (by simp) (by simp) (fun he => hm (by rw [Option.some.inj he]))]
  unfold merge_entries_conflict
  dsimp only
  rw [if_neg hm, if_pos (by rw [hcf, hof]; rfl)]
  unfold merge_content
  rw [if_pos (show Mode.exec.is_file = true from rfl)]

/-- Witness for C9: current EXEC, other REGULAR, no base. -/
theorem claim_mergeEntry_absent_base_exec_witness :
    merge_entries envW [] lblW (some eXW) none (some eRW2) 0
      = mapRes (fun body => some (Entry.mk Mode.exec (Obj.blob body)))
          (merge_blobs envW [] lblW eXW.blobE none eRW2.blobE 0) :=
  claim_mergeEntry_absent_base_exec envW [] lblW eXW eRW2 0 (by decide)
    (by decide) (by decide)

end Zipfix
